import Mathlib

/-!
Verification of the alternating-disks program (`disks.hpp`).

A `disk_state` is modelled as a `List disk_color` (the `_colors` vector).
The constructor `disk_state(light_count)` is `Row`/`canonRow`; `get`, `swap`,
`is_sorted`, `sort_left_to_right` and `sort_lawnmower` follow the source.
Operations guarded by `assert` in the source return `Option`, with `none`
for an assertion failure.  The `while (!is_sorted())` loops are modelled by
fueled recursion (`sortAux`); `none` stands for a non-terminating run.  The
fuel supplied at the top level is `inv before`, the number of
DARK-before-LIGHT inversions, which is proved sufficient whenever the C++
loop terminates (each executed swap removes exactly one inversion, and a
pass of zero swaps leaves the row unchanged forever).
-/

namespace Disks

/-- State of one disk, either light or dark (`enum disk_color`). -/
inductive disk_color : Type
  | DISK_LIGHT : disk_color
  | DISK_DARK : disk_color
deriving DecidableEq

export disk_color (DISK_LIGHT DISK_DARK)

/-- `total_count()`: the size of the colour vector. -/
def total_count (l : List disk_color) : Nat :=
  l.length

/-- Number of LIGHT disks in a row (used for invariants). -/
def countL : List disk_color → Nat
  | [] => 0
  | c :: rest => (if c = DISK_LIGHT then 1 else 0) + countL rest

/-- Number of DARK disks in a row (used for invariants). -/
def countD : List disk_color → Nat
  | [] => 0
  | c :: rest => (if c = DISK_DARK then 1 else 0) + countD rest

/-- Number of DARK-before-LIGHT inversions: pairs `i < j` with `l[i]` DARK
and `l[j]` LIGHT.  Measure for the sorting loops. -/
def inv : List disk_color → Nat
  | [] => 0
  | c :: rest => (if c = DISK_DARK then countL rest else 0) + inv rest

/-- Number of LIGHT-before-DARK pairs; `inv` of the reversed row. -/
def rinv : List disk_color → Nat
  | [] => 0
  | c :: rest => (if c = DISK_LIGHT then countD rest else 0) + rinv rest

/-- `is_sorted()`: the loop scans indices `0 .. total_count()/2 - 1`,
returns `false` on the first non-LIGHT disk, and otherwise returns the flag
`s`, which is `true` iff the loop body ran at least once.  Hence the result
is `total_count()/2 > 0` and all of the first half LIGHT. -/
def is_sorted (l : List disk_color) : Bool :=
  decide (0 < total_count l / 2) &&
    (l.take (total_count l / 2)).all (fun c => decide (c = DISK_LIGHT))

/-- `get(index)`: `some` element, or `none` when `assert(is_index(index))`
fails. -/
def get (l : List disk_color) (index : Nat) : Option disk_color :=
  l.get? index

/-- `swap(left_index)`: exchange the elements at `left_index` and
`left_index + 1`; `none` when either bounds assertion fails. -/
def swap : List disk_color → Nat → Option (List disk_color)
  | x :: y :: rest, 0 => some (y :: x :: rest)
  | x :: rest, n + 1 => (swap rest n).map (fun r => x :: r)
  | _, _ => none

/-- The canonical initial row built by `disk_state(light_count)`:
`2 * light_count` cells, LIGHT everywhere, then every even index set to
DARK. -/
def canonRow (light_count : Nat) : List disk_color :=
  (List.range (2 * light_count)).map
    (fun i => if i % 2 = 0 then DISK_DARK else DISK_LIGHT)

/-- Constructing a row: `assert(light_count > 0)` fails exactly on `0`. -/
def Row (light_count : Nat) : Option (List disk_color) :=
  if light_count = 0 then none else some (canonRow light_count)

/-- One step of the left-to-right scan, carrying the element currently at
position `i`: the loop body `if (get(i) == DISK_DARK && get(i+1) ==
DISK_LIGHT) swap(i);` emits the lighter element and carries the other one
rightward. -/
def ltrPassGo (c : disk_color) : List disk_color → List disk_color × Nat
  | [] => ([c], 0)
  | c2 :: rest =>
    if c = DISK_DARK ∧ c2 = DISK_LIGHT then
      let p := ltrPassGo c rest
      (c2 :: p.1, p.2 + 1)
    else
      let p := ltrPassGo c2 rest
      (c :: p.1, p.2)

/-- One full left-to-right pass (`for i = 0 .. total_count()-2`) over the
row, returning the new row and the number of swaps performed. -/
def ltrPass : List disk_color → List disk_color × Nat
  | [] => ([], 0)
  | c :: rest => ltrPassGo c rest

/-- One step of the backward scan of the lawnmower algorithm, expressed on
the reversed row: the loop body `if (get(j) == DISK_LIGHT && get(j-1) ==
DISK_DARK) swap(j-1);` carries a LIGHT element toward the front. -/
def bkGo (c : disk_color) : List disk_color → List disk_color × Nat
  | [] => ([c], 0)
  | c2 :: rest =>
    if c = DISK_LIGHT ∧ c2 = DISK_DARK then
      let p := bkGo c rest
      (c2 :: p.1, p.2 + 1)
    else
      let p := bkGo c2 rest
      (c :: p.1, p.2)

/-- Backward scan on an already-reversed row. -/
def bkAux : List disk_color → List disk_color × Nat
  | [] => ([], 0)
  | c :: rest => bkGo c rest

/-- One full backward pass (`for j = total_count()-1 .. 1`) of the
lawnmower algorithm: the scan from the right end is the forward scan of the
reversed row. -/
def backPass (l : List disk_color) : List disk_color × Nat :=
  ((bkAux l.reverse).1.reverse, (bkAux l.reverse).2)

/-- One outer iteration of `sort_lawnmower`: a forward pass immediately
followed by a backward pass, swap counts added. -/
def lawnStep (l : List disk_color) : List disk_color × Nat :=
  let p := ltrPass l
  let q := backPass p.1
  (q.1, p.2 + q.2)

/-- The `while (!after.is_sorted())` loop, fueled: each unit of fuel allows
one outer iteration `step`; `none` when the fuel runs out unsorted. -/
def sortAux (step : List disk_color → List disk_color × Nat) :
    Nat → List disk_color → Nat → Option (List disk_color × Nat)
  | 0, l, acc => if is_sorted l then some (l, acc) else none
  | fuel + 1, l, acc =>
    if is_sorted l then some (l, acc)
    else sortAux step fuel ((step l).1) (acc + (step l).2)

/-- `sort_left_to_right`: repeat left-to-right passes until sorted.  Fuel
`inv before` is proved sufficient for every terminating run. -/
def sort_left_to_right (before : List disk_color) :
    Option (List disk_color × Nat) :=
  sortAux ltrPass (inv before) before 0

/-- `sort_lawnmower`: repeat forward-then-backward passes until sorted. -/
def sort_lawnmower (before : List disk_color) :
    Option (List disk_color × Nat) :=
  sortAux lawnStep (inv before) before 0

/-- `true` iff a sorting run returned and its final row satisfies
`is_sorted()`. -/
def sortedOut (o : Option (List disk_color × Nat)) : Bool :=
  match o with
  | some p => is_sorted p.1
  | none => false

/-- Rows reachable through the public API: built by `Row` with
`light_count ≥ 1` and mutated only by successful adjacent swaps. -/
inductive Reachable : List disk_color → Prop
  | init (n : Nat) (h : 1 ≤ n) : Reachable (canonRow n)
  | step (l r : List disk_color) (i : Nat) :
      Reachable l → swap l i = some r → Reachable r

/-! ### Counting lemmas -/

theorem countL_add_countD (l : List disk_color) :
    countL l + countD l = l.length := by
  induction l with
  | nil => rfl
  | cons c rest ih => cases c <;> simp [countL, countD] <;> omega

theorem countL_append (xs ys : List disk_color) :
    countL (xs ++ ys) = countL xs + countL ys := by
  induction xs with
  | nil => simp [countL]
  | cons c rest ih => simp [countL, ih]; omega

theorem countD_append (xs ys : List disk_color) :
    countD (xs ++ ys) = countD xs + countD ys := by
  induction xs with
  | nil => simp [countD]
  | cons c rest ih => simp [countD, ih]; omega

theorem countL_reverse (l : List disk_color) :
    countL l.reverse = countL l := by
  induction l with
  | nil => rfl
  | cons c rest ih =>
      simp [List.reverse_cons, countL_append, countL, ih]; omega

theorem countD_reverse (l : List disk_color) :
    countD l.reverse = countD l := by
  induction l with
  | nil => rfl
  | cons c rest ih =>
      simp [List.reverse_cons, countD_append, countD, ih]; omega

theorem countL_replicate (n : Nat) :
    countL (List.replicate n DISK_LIGHT) = n := by
  induction n with
  | zero => rfl
  | succ n ih => simp [List.replicate, countL, ih]; omega

theorem countD_replicate (n : Nat) :
    countD (List.replicate n DISK_DARK) = n := by
  induction n with
  | zero => rfl
  | succ n ih => simp [List.replicate, countD, ih]; omega

theorem countL_eq_zero_all_dark (l : List disk_color) (h : countL l = 0) :
    ∀ c ∈ l, c = DISK_DARK := by
  induction l with
  | nil => intro c hc; cases hc
  | cons x rest ih =>
      intro c hc
      have hx : x = DISK_DARK := by
        cases x
        · simp [countL] at h
        · rfl
      have hr : countL rest = 0 := by
        subst hx
        simpa [countL] using h
      rcases List.mem_cons.mp hc with rfl | hmem
      · exact hx
      · exact ih hr c hmem

/-! ### Inversion lemmas for the passes -/

theorem ltrPassGo_countL (l : List disk_color) :
    ∀ c, countL (ltrPassGo c l).1 = countL (c :: l) := by
  induction l with
  | nil => intro c; rfl
  | cons c2 rest ih =>
      intro c
      by_cases h : c = DISK_DARK ∧ c2 = DISK_LIGHT
      · rcases h with ⟨h1, h2⟩
        subst h1; subst h2
        have := ih DISK_DARK
        simp [ltrPassGo, countL] at this ⊢
        omega
      · have := ih c2
        cases c <;> cases c2 <;>
          simp [ltrPassGo, countL] at this h ⊢ <;> omega

theorem ltrPassGo_countD (l : List disk_color) :
    ∀ c, countD (ltrPassGo c l).1 = countD (c :: l) := by
  induction l with
  | nil => intro c; rfl
  | cons c2 rest ih =>
      intro c
      by_cases h : c = DISK_DARK ∧ c2 = DISK_LIGHT
      · rcases h with ⟨h1, h2⟩
        subst h1; subst h2
        have := ih DISK_DARK
        simp [ltrPassGo, countD] at this ⊢
        omega
      · have := ih c2
        cases c <;> cases c2 <;>
          simp [ltrPassGo, countD] at this h ⊢ <;> omega

theorem ltrPassGo_length (l : List disk_color) :
    ∀ c, (ltrPassGo c l).1.length = l.length + 1 := by
  induction l with
  | nil => intro c; rfl
  | cons c2 rest ih =>
      intro c
      by_cases h : c = DISK_DARK ∧ c2 = DISK_LIGHT
      · rcases h with ⟨h1, h2⟩
        subst h1; subst h2
        simp [ltrPassGo, ih DISK_DARK]
      · simp [ltrPassGo, h, ih c2]

theorem ltrPassGo_inv (l : List disk_color) :
    ∀ c, inv (ltrPassGo c l).1 + (ltrPassGo c l).2 = inv (c :: l) := by
  induction l with
  | nil => intro c; cases c <;> simp [ltrPassGo, inv, countL]
  | cons c2 rest ih =>
      intro c
      by_cases h : c = DISK_DARK ∧ c2 = DISK_LIGHT
      · rcases h with ⟨h1, h2⟩; subst h1; subst h2
        have := ih DISK_DARK
        simp [ltrPassGo, inv, countL] at this ⊢
        omega
      · have := ih c2
        have hcl := ltrPassGo_countL rest c2
        cases c <;> cases c2 <;>
          simp [ltrPassGo, inv, countL] at this hcl h ⊢ <;> omega

theorem ltrPassGo_zero (l : List disk_color) :
    ∀ c, (ltrPassGo c l).2 = 0 → inv (c :: l) = 0 := by
  induction l with
  | nil => intro c _; cases c <;> simp [inv, countL]
  | cons c2 rest ih =>
      intro c hz
      by_cases h : c = DISK_DARK ∧ c2 = DISK_LIGHT
      · simp [ltrPassGo, h] at hz
      · have := ih c2 (by simpa [ltrPassGo, h] using hz)
        cases c <;> cases c2 <;>
          simp [inv, countL] at this h ⊢ <;> omega

theorem ltrPass_countL (l : List disk_color) :
    countL (ltrPass l).1 = countL l := by
  cases l with
  | nil => rfl
  | cons c rest => exact ltrPassGo_countL rest c

theorem ltrPass_countD (l : List disk_color) :
    countD (ltrPass l).1 = countD l := by
  cases l with
  | nil => rfl
  | cons c rest => exact ltrPassGo_countD rest c

theorem ltrPass_length (l : List disk_color) :
    (ltrPass l).1.length = l.length := by
  cases l with
  | nil => rfl
  | cons c rest => exact ltrPassGo_length rest c

theorem ltrPass_inv (l : List disk_color) :
    inv (ltrPass l).1 + (ltrPass l).2 = inv l := by
  cases l with
  | nil => rfl
  | cons c rest => exact ltrPassGo_inv rest c

theorem ltrPass_zero (l : List disk_color) (h : (ltrPass l).2 = 0) :
    inv l = 0 := by
  cases l with
  | nil => rfl
  | cons c rest => exact ltrPassGo_zero rest c h

/-! ### The backward pass, via the reversed row -/

theorem inv_append_one (xs : List disk_color) (c : disk_color) :
    inv (xs ++ [c]) = inv xs + (if c = DISK_LIGHT then countD xs else 0) := by
  induction xs with
  | nil => cases c <;> simp [inv, countD, countL]
  | cons x rest ih =>
      cases x <;> cases c <;>
        simp [inv, countD, countL_append, countL, ih] <;> omega

theorem rinv_append_one (xs : List disk_color) (c : disk_color) :
    rinv (xs ++ [c]) = rinv xs + (if c = DISK_DARK then countL xs else 0) := by
  induction xs with
  | nil => cases c <;> simp [rinv, countL, countD]
  | cons x rest ih =>
      cases x <;> cases c <;>
        simp [rinv, countL, countD_append, countD, ih] <;> omega

theorem rinv_reverse (l : List disk_color) : rinv l.reverse = inv l := by
  induction l with
  | nil => rfl
  | cons c rest ih =>
      cases c <;>
          simp [List.reverse_cons, rinv_append_one, countL_reverse, inv, ih] <;>
        omega

theorem inv_reverse (l : List disk_color) : inv l.reverse = rinv l := by
  induction l with
  | nil => rfl
  | cons c rest ih =>
      cases c <;>
          simp [List.reverse_cons, inv_append_one, countD_reverse, rinv, ih] <;>
        omega

theorem bkGo_countL (l : List disk_color) :
    ∀ c, countL (bkGo c l).1 = countL (c :: l) := by
  induction l with
  | nil => intro c; rfl
  | cons c2 rest ih =>
      intro c
      by_cases h : c = DISK_LIGHT ∧ c2 = DISK_DARK
      · rcases h with ⟨h1, h2⟩
        subst h1; subst h2
        have := ih DISK_LIGHT
        simp [bkGo, countL] at this ⊢
        omega
      · have := ih c2
        cases c <;> cases c2 <;>
          simp [bkGo, countL] at this h ⊢ <;> omega

theorem bkGo_countD (l : List disk_color) :
    ∀ c, countD (bkGo c l).1 = countD (c :: l) := by
  induction l with
  | nil => intro c; rfl
  | cons c2 rest ih =>
      intro c
      by_cases h : c = DISK_LIGHT ∧ c2 = DISK_DARK
      · rcases h with ⟨h1, h2⟩
        subst h1; subst h2
        have := ih DISK_LIGHT
        simp [bkGo, countD] at this ⊢
        omega
      · have := ih c2
        cases c <;> cases c2 <;>
          simp [bkGo, countD] at this h ⊢ <;> omega

theorem bkGo_length (l : List disk_color) :
    ∀ c, (bkGo c l).1.length = l.length + 1 := by
  induction l with
  | nil => intro c; rfl
  | cons c2 rest ih =>
      intro c
      by_cases h : c = DISK_LIGHT ∧ c2 = DISK_DARK
      · rcases h with ⟨h1, h2⟩
        subst h1; subst h2
        simp [bkGo, ih DISK_LIGHT]
      · simp [bkGo, h, ih c2]

theorem bkGo_rinv (l : List disk_color) :
    ∀ c, rinv (bkGo c l).1 + (bkGo c l).2 = rinv (c :: l) := by
  induction l with
  | nil => intro c; cases c <;> simp [bkGo, rinv, countD]
  | cons c2 rest ih =>
      intro c
      by_cases h : c = DISK_LIGHT ∧ c2 = DISK_DARK
      · rcases h with ⟨h1, h2⟩
        subst h1; subst h2
        have := ih DISK_LIGHT
        simp [bkGo, rinv, countD] at this ⊢
        omega
      · have := ih c2
        have hcd := bkGo_countD rest c2
        cases c <;> cases c2 <;>
          simp [bkGo, rinv, countD] at this hcd h ⊢ <;> omega

theorem bkAux_rinv (l : List disk_color) :
    rinv (bkAux l).1 + (bkAux l).2 = rinv l := by
  cases l with
  | nil => rfl
  | cons c rest => exact bkGo_rinv rest c

theorem bkAux_countL (l : List disk_color) :
    countL (bkAux l).1 = countL l := by
  cases l with
  | nil => rfl
  | cons c rest => exact bkGo_countL rest c

theorem bkAux_countD (l : List disk_color) :
    countD (bkAux l).1 = countD l := by
  cases l with
  | nil => rfl
  | cons c rest => exact bkGo_countD rest c

theorem bkAux_length (l : List disk_color) :
    (bkAux l).1.length = l.length := by
  cases l with
  | nil => rfl
  | cons c rest => simp [bkAux, bkGo_length rest c]

theorem backPass_inv (l : List disk_color) :
    inv (backPass l).1 + (backPass l).2 = inv l := by
  have h1 : inv ((bkAux l.reverse).1.reverse) = rinv (bkAux l.reverse).1 :=
    inv_reverse _
  have h2 := bkAux_rinv l.reverse
  have h3 : rinv l.reverse = inv l := rinv_reverse l
  simp [backPass, h1]
  omega

theorem backPass_countL (l : List disk_color) :
    countL (backPass l).1 = countL l := by
  simp [backPass, countL_reverse, bkAux_countL]

theorem backPass_countD (l : List disk_color) :
    countD (backPass l).1 = countD l := by
  simp [backPass, countD_reverse, bkAux_countD]

theorem backPass_length (l : List disk_color) :
    (backPass l).1.length = l.length := by
  simp [backPass, bkAux_length]

theorem lawnStep_countL (l : List disk_color) :
    countL (lawnStep l).1 = countL l := by
  simp [lawnStep, backPass_countL, ltrPass_countL]

theorem lawnStep_countD (l : List disk_color) :
    countD (lawnStep l).1 = countD l := by
  simp [lawnStep, backPass_countD, ltrPass_countD]

theorem lawnStep_length (l : List disk_color) :
    (lawnStep l).1.length = l.length := by
  simp [lawnStep, backPass_length, ltrPass_length]

theorem lawnStep_inv (l : List disk_color) :
    inv (lawnStep l).1 + (lawnStep l).2 = inv l := by
  have h1 := backPass_inv (ltrPass l).1
  have h2 := ltrPass_inv l
  simp [lawnStep]
  omega

theorem lawnStep_zero (l : List disk_color) (h : (lawnStep l).2 = 0) :
    inv l = 0 := by
  apply ltrPass_zero
  simp [lawnStep] at h
  omega

/-! ### Characterizing `is_sorted` -/

theorem is_sorted_iff (l : List disk_color) :
    is_sorted l = true ↔
      0 < l.length / 2 ∧ ∀ c ∈ l.take (l.length / 2), c = DISK_LIGHT := by
  simp [is_sorted, total_count, List.all_eq_true]

theorem countL_repl_dark (n : Nat) :
    countL (List.replicate n DISK_DARK) = 0 := by
  induction n with
  | zero => rfl
  | succ n ih => simp [List.replicate_succ, countL, ih]

theorem inv_eq_zero_split (l : List disk_color) (h : inv l = 0) :
    l = List.replicate (countL l) DISK_LIGHT ++
      List.replicate (countD l) DISK_DARK := by
  induction l with
  | nil => rfl
  | cons c rest ih =>
      cases c with
      | DISK_LIGHT =>
          have hr : inv rest = 0 := by simpa [inv] using h
          have ih' := ih hr
          have h1 : countL (DISK_LIGHT :: rest) = countL rest + 1 := by
            simp [countL]
            omega
          have h2 : countD (DISK_LIGHT :: rest) = countD rest := by
            simp [countD]
          rw [h1, h2, List.replicate_succ, List.cons_append]
          exact congrArg (fun t => DISK_LIGHT :: t) ih'
      | DISK_DARK =>
          have hcl : countL rest = 0 ∧ inv rest = 0 := by
            simp [inv] at h
            omega
          have ih' := ih hcl.2
          rw [hcl.1] at ih'
          have h1 : countL (DISK_DARK :: rest) = 0 := by
            simp [countL, hcl.1]
          have h2 : countD (DISK_DARK :: rest) = countD rest + 1 := by
            simp [countD]
            omega
          rw [h1, h2]
          simp only [List.replicate_zero, List.nil_append] at ih' ⊢
          rw [List.replicate_succ]
          exact congrArg (fun t => DISK_DARK :: t) ih'

theorem sorted_repl (n : Nat) (h : 1 ≤ n) :
    is_sorted (List.replicate n DISK_LIGHT ++
      List.replicate n DISK_DARK) = true := by
  rw [is_sorted_iff]
  have hlen : (List.replicate n DISK_LIGHT ++
      List.replicate n DISK_DARK).length = n + n := by
    simp
  have hdiv : (n + n) / 2 = n := by omega
  rw [hlen, hdiv]
  constructor
  · omega
  · intro c hc
    rw [List.take_left' (by simp)] at hc
    exact List.eq_of_mem_replicate hc

theorem inv_repl_dark (b : Nat) :
    inv (List.replicate b DISK_DARK) = 0 := by
  induction b with
  | zero => rfl
  | succ b ih => simp [List.replicate_succ, inv, countL_repl_dark, ih]

theorem inv_repl (a b : Nat) :
    inv (List.replicate a DISK_LIGHT ++ List.replicate b DISK_DARK) = 0 := by
  induction a with
  | zero => simpa using inv_repl_dark b
  | succ a iha => simpa [List.replicate_succ, inv] using iha

theorem sorted_of_balanced_inv_zero (l : List disk_color) (n : Nat)
    (hL : countL l = n) (hD : countD l = n) (hn : 1 ≤ n)
    (h : inv l = 0) : is_sorted l = true := by
  have := inv_eq_zero_split l h
  rw [hL, hD] at this
  rw [this]
  exact sorted_repl n hn

/-- A sorted balanced row is LIGHT-half followed by DARK-half. -/
theorem sorted_balanced_eq_repl (l : List disk_color) (n : Nat)
    (hL : countL l = n) (hD : countD l = n)
    (hs : is_sorted l = true) :
    l = List.replicate n DISK_LIGHT ++ List.replicate n DISK_DARK := by
  have hlen : l.length = n + n := by
    have := countL_add_countD l
    omega
  have hdiv : l.length / 2 = n := by omega
  rw [is_sorted_iff, hdiv] at hs
  have htake : l.take n = List.replicate n DISK_LIGHT := by
    apply List.eq_replicate_iff.mpr
    refine ⟨by simp [hlen], hs.2⟩
  have hsplit : l.take n ++ l.drop n = l := List.take_append_drop n l
  have hcl : countL (l.drop n) = 0 := by
    have := countL_append (l.take n) (l.drop n)
    rw [hsplit, htake, countL_replicate] at this
    omega
  have hdlen : (l.drop n).length = n := by simp [hlen]
  have hdrop : l.drop n = List.replicate n DISK_DARK := by
    apply List.eq_replicate_iff.mpr
    exact ⟨hdlen, countL_eq_zero_all_dark _ hcl⟩
  rw [← hsplit, htake, hdrop]

/-! ### The fueled while-loop -/

/-- Soundness of a fueled run: the loop exits only on a sorted row, the
colour counts are preserved, and `final count + remaining inversions =
initial count + initial inversions` (each swap removes one inversion). -/
theorem sortAux_sound (step : List disk_color → List disk_color × Nat)
    (Hc : ∀ l, countL (step l).1 = countL l)
    (Hd : ∀ l, countD (step l).1 = countD l)
    (Hlen : ∀ l, (step l).1.length = l.length)
    (Hinv : ∀ l, inv (step l).1 + (step l).2 = inv l) :
    ∀ fuel l acc r c, sortAux step fuel l acc = some (r, c) →
      is_sorted r = true ∧ countL r = countL l ∧ countD r = countD l ∧
        r.length = l.length ∧ c + inv r = acc + inv l := by
  intro fuel
  induction fuel with
  | zero =>
      intro l acc r c h
      by_cases hs : is_sorted l = true
      · simp [sortAux, hs] at h
        rcases h with ⟨h1, h2⟩
        subst h1; subst h2
        exact ⟨hs, rfl, rfl, rfl, rfl⟩
      · simp [sortAux, hs] at h
  | succ fuel ih =>
      intro l acc r c h
      by_cases hs : is_sorted l = true
      · simp [sortAux, hs] at h
        rcases h with ⟨h1, h2⟩
        subst h1; subst h2
        exact ⟨hs, rfl, rfl, rfl, rfl⟩
      · rw [sortAux, if_neg hs] at h
        rcases ih _ _ _ _ h with ⟨hs', hL', hD', hlen', hc'⟩
        refine ⟨hs', by rw [hL', Hc], by rw [hD', Hd],
          by rw [hlen', Hlen], ?_⟩
        have := Hinv l
        omega

/-- Termination: on a balanced row with at least one disk of each colour,
fuel `inv l` suffices — every non-final pass performs at least one swap, and
each swap removes exactly one inversion. -/
theorem sortAux_term (step : List disk_color → List disk_color × Nat)
    (Hc : ∀ l, countL (step l).1 = countL l)
    (Hd : ∀ l, countD (step l).1 = countD l)
    (Hinv : ∀ l, inv (step l).1 + (step l).2 = inv l)
    (Hzero : ∀ l, (step l).2 = 0 → inv l = 0) :
    ∀ fuel l acc n, inv l ≤ fuel → countL l = n → countD l = n →
      1 ≤ n → ∃ r c, sortAux step fuel l acc = some (r, c) := by
  intro fuel
  induction fuel with
  | zero =>
      intro l acc n hf hL hD hn
      have hs : is_sorted l = true :=
        sorted_of_balanced_inv_zero l n hL hD hn (by omega)
      exact ⟨l, acc, by simp [sortAux, hs]⟩
  | succ fuel ih =>
      intro l acc n hf hL hD hn
      by_cases hs : is_sorted l = true
      · exact ⟨l, acc, by simp [sortAux, hs]⟩
      · rw [sortAux, if_neg hs]
        have hnz : (step l).2 ≠ 0 := by
          intro hz
          exact hs (sorted_of_balanced_inv_zero l n hL hD hn (Hzero l hz))
        have hinv' : inv (step l).1 ≤ fuel := by
          have := Hinv l
          omega
        exact ih (step l).1 (acc + (step l).2) n hinv'
          (by rw [Hc, hL]) (by rw [Hd, hD]) hn

/-! ### The canonical initial row -/

theorem canonRow_zero : canonRow 0 = [] := by
  rfl

theorem canonRow_succ (n : Nat) :
    canonRow (n + 1) = DISK_DARK :: DISK_LIGHT :: canonRow n := by
  have h2 : 2 * (n + 1) = 2 * n + 1 + 1 := by ring
  rw [canonRow, h2, List.range_succ_eq_map, List.range_succ_eq_map]
  simp only [List.map_cons, List.map_map]
  rw [canonRow]
  refine congrArg (fun t => DISK_DARK :: DISK_LIGHT :: t) ?_
  apply List.map_congr_left
  intro i _
  simp only [Function.comp, Nat.succ_eq_add_one]
  have hm : (i + 1 + 1) % 2 = i % 2 := by omega
  simp [hm]

theorem countL_canon (n : Nat) : countL (canonRow n) = n := by
  induction n with
  | zero => rfl
  | succ n ih => simp [canonRow_succ, countL, ih]; omega

theorem countD_canon (n : Nat) : countD (canonRow n) = n := by
  induction n with
  | zero => rfl
  | succ n ih => simp [canonRow_succ, countD, ih]; omega

theorem length_canon (n : Nat) : (canonRow n).length = 2 * n := by
  simp [canonRow]

theorem inv_canon (n : Nat) : 2 * inv (canonRow n) = n * (n + 1) := by
  induction n with
  | zero => rfl
  | succ n ih =>
      have hstep : inv (canonRow (n + 1)) = (n + 1) + inv (canonRow n) := by
        simp [canonRow_succ, inv, countL, countL_canon]
        omega
      have hring : (n + 1) * (n + 1 + 1) = n * (n + 1) + 2 * (n + 1) := by
        ring
      rw [hstep, hring]
      omega

/-! ### The two algorithms on the canonical row -/

theorem ltrPass_facts :
    (∀ l, countL (ltrPass l).1 = countL l) ∧
      (∀ l, countD (ltrPass l).1 = countD l) ∧
      (∀ l, (ltrPass l).1.length = l.length) ∧
      (∀ l, inv (ltrPass l).1 + (ltrPass l).2 = inv l) :=
  ⟨ltrPass_countL, ltrPass_countD, ltrPass_length, ltrPass_inv⟩

theorem sort_left_to_right_balanced (l : List disk_color) (n : Nat)
    (hL : countL l = n) (hD : countD l = n) (hn : 1 ≤ n) :
    sort_left_to_right l =
      some (List.replicate n DISK_LIGHT ++ List.replicate n DISK_DARK,
        inv l) := by
  obtain ⟨r, c, h⟩ := sortAux_term ltrPass ltrPass_countL ltrPass_countD
    ltrPass_inv ltrPass_zero (inv l) l 0 n (Nat.le_refl _) hL hD hn
  obtain ⟨hs, hL', hD', _, hc⟩ := sortAux_sound ltrPass ltrPass_countL
    ltrPass_countD ltrPass_length ltrPass_inv (inv l) l 0 r c h
  have hr : r = List.replicate n DISK_LIGHT ++ List.replicate n DISK_DARK :=
    sorted_balanced_eq_repl r n (by omega) (by omega) hs
  have hinvr : inv r = 0 := by
    rw [hr]
    exact inv_repl n n
  rw [sort_left_to_right, h, hr]
  have : c = inv l := by omega
  rw [this]

theorem sort_lawnmower_balanced (l : List disk_color) (n : Nat)
    (hL : countL l = n) (hD : countD l = n) (hn : 1 ≤ n) :
    sort_lawnmower l =
      some (List.replicate n DISK_LIGHT ++ List.replicate n DISK_DARK,
        inv l) := by
  obtain ⟨r, c, h⟩ := sortAux_term lawnStep lawnStep_countL lawnStep_countD
    lawnStep_inv lawnStep_zero (inv l) l 0 n (Nat.le_refl _) hL hD hn
  obtain ⟨hs, hL', hD', _, hc⟩ := sortAux_sound lawnStep lawnStep_countL
    lawnStep_countD lawnStep_length lawnStep_inv (inv l) l 0 r c h
  have hr : r = List.replicate n DISK_LIGHT ++ List.replicate n DISK_DARK :=
    sorted_balanced_eq_repl r n (by omega) (by omega) hs
  have hinvr : inv r = 0 := by
    rw [hr]
    exact inv_repl n n
  rw [sort_lawnmower, h, hr]
  have : c = inv l := by omega
  rw [this]

/-! ### The `swap` and `get` operations -/

theorem swap_eq_none_iff (l : List disk_color) :
    ∀ i, swap l i = none ↔ l.length ≤ i + 1 := by
  induction l with
  | nil =>
      intro i
      simp [swap]
  | cons x rest ih =>
      intro i
      cases i with
      | zero =>
          cases rest with
          | nil => simp [swap]
          | cons y rest2 => simp [swap]
      | succ i =>
          constructor
          · intro h
            have hnone : swap rest i = none := by
              cases hsw : swap rest i with
              | none => rfl
              | some r => simp [swap, hsw] at h
            have := (ih i).mp hnone
            simp
            omega
          · intro h
            have hlen : rest.length ≤ i + 1 := by
              simp at h
              omega
            have hnone := (ih i).mpr hlen
            simp [swap, hnone]

theorem swap_some_counts (l : List disk_color) :
    ∀ i r, swap l i = some r →
      countL r = countL l ∧ countD r = countD l ∧ r.length = l.length := by
  induction l with
  | nil =>
      intro i r h
      simp [swap] at h
  | cons x rest ih =>
      intro i r h
      cases i with
      | zero =>
          cases rest with
          | nil => simp [swap] at h
          | cons y rest2 =>
              simp [swap] at h
              subst h
              refine ⟨?_, ?_, ?_⟩ <;> simp [countL, countD] <;> omega
      | succ i =>
          simp [swap] at h
          rcases h with ⟨r2, hr2, rfl⟩
          obtain ⟨h1, h2, h3⟩ := ih i r2 hr2
          refine ⟨?_, ?_, ?_⟩ <;> simp [countL, countD, h1, h2, h3]

theorem swap_some_get (l : List disk_color) :
    ∀ i r, swap l i = some r →
      ∀ j, j ≠ i → j ≠ i + 1 → get r j = get l j := by
  induction l with
  | nil =>
      intro i r h
      simp [swap] at h
  | cons x rest ih =>
      intro i r h j hj1 hj2
      cases i with
      | zero =>
          cases rest with
          | nil => simp [swap] at h
          | cons y rest2 =>
              simp [swap] at h
              subst h
              cases j with
              | zero => exact absurd rfl hj1
              | succ j =>
                  cases j with
                  | zero => exact absurd rfl hj2
                  | succ j => simp [get, List.get?]
      | succ i =>
          simp [swap] at h
          rcases h with ⟨r2, hr2, rfl⟩
          cases j with
          | zero => simp [get, List.get?]
          | succ j =>
              have := ih i r2 hr2 j (by omega) (by omega)
              simpa [get, List.get?] using this

/-- Every row reachable through the public API is balanced: `n` LIGHT and
`n` DARK disks for some `n ≥ 1`. -/
theorem reachable_balanced (l : List disk_color) (h : Reachable l) :
    ∃ n, 1 ≤ n ∧ countL l = n ∧ countD l = n := by
  induction h with
  | init m hm => exact ⟨m, hm, countL_canon m, countD_canon m⟩
  | step l2 r i hre hsw ih =>
      obtain ⟨n, hn, hL, hD⟩ := ih
      obtain ⟨h1, h2, _⟩ := swap_some_counts l2 i r hsw
      exact ⟨n, hn, by omega, by omega⟩

/-- Running the while loop on an already-sorted row exits immediately. -/
theorem sortAux_sorted (step : List disk_color → List disk_color × Nat)
    (fuel : Nat) (l : List disk_color) (acc : Nat)
    (h : is_sorted l = true) : sortAux step fuel l acc = some (l, acc) := by
  cases fuel with
  | zero => simp [sortAux, h]
  | succ fuel => simp [sortAux, h]

/-- Membership form of the first-half scan versus indexed access. -/
theorem take_all_light_iff (l : List disk_color) :
    ∀ m, m ≤ l.length →
      ((∀ c ∈ l.take m, c = DISK_LIGHT) ↔
        ∀ i, i < m → get l i = some DISK_LIGHT) := by
  induction l with
  | nil =>
      intro m hm
      have hz : m = 0 := Nat.le_zero.mp hm
      subst hz
      simp
  | cons x rest ih =>
      intro m hm
      cases m with
      | zero => simp
      | succ m' =>
          have hm' : m' ≤ rest.length := by
            simp at hm
            omega
          rw [List.take_succ_cons]
          constructor
          · intro h i hi
            cases i with
            | zero =>
                have hx : x = DISK_LIGHT := h x (List.mem_cons_self x _)
                simp [get, List.get?, hx]
            | succ i' =>
                have hall : ∀ c ∈ rest.take m', c = DISK_LIGHT := by
                  intro c hc
                  exact h c (List.mem_cons_of_mem x hc)
                have := ((ih m' hm').mp hall) i' (by omega)
                simpa [get, List.get?] using this
          · intro h c hc
            rcases List.mem_cons.mp hc with rfl | hc2
            · have := h 0 (by omega)
              simpa [get, List.get?] using this
            · refine ((ih m' hm').mpr ?_) c hc2
              intro i hi
              have := h (i + 1) (by omega)
              simpa [get, List.get?] using this

/-! ### The claims -/

/-- C1: for every `n ≥ 1`, either algorithm applied to the canonical
initial row built by `Row(n)` (DARK,LIGHT repeated `n` times) returns the
row `LIGHT^n ++ DARK^n`: length `2n`, first `n` elements all LIGHT, last
`n` elements all DARK, and `is_sorted()` holds on it. -/
theorem C1_sorts_canonical (n : Nat) (h : 1 ≤ n) :
    (sort_left_to_right (canonRow n)).map Prod.fst =
        some (List.replicate n DISK_LIGHT ++ List.replicate n DISK_DARK) ∧
      (sort_lawnmower (canonRow n)).map Prod.fst =
        some (List.replicate n DISK_LIGHT ++ List.replicate n DISK_DARK) ∧
      (List.replicate n DISK_LIGHT ++
          List.replicate n DISK_DARK).length = 2 * n ∧
      (List.replicate n DISK_LIGHT ++ List.replicate n DISK_DARK).take n =
        List.replicate n DISK_LIGHT ∧
      (List.replicate n DISK_LIGHT ++ List.replicate n DISK_DARK).drop n =
        List.replicate n DISK_DARK ∧
      is_sorted (List.replicate n DISK_LIGHT ++
        List.replicate n DISK_DARK) = true := by
  rw [sort_left_to_right_balanced _ n (countL_canon n) (countD_canon n) h,
    sort_lawnmower_balanced _ n (countL_canon n) (countD_canon n) h]
  refine ⟨rfl, rfl, by simp; omega, List.take_left' (by simp),
    List.drop_left' (by simp), sorted_repl n h⟩

/-- C1 witness at `n = 1`. -/
theorem C1_witness :
    (sort_left_to_right (canonRow 1)).map Prod.fst =
        some (List.replicate 1 DISK_LIGHT ++ List.replicate 1 DISK_DARK) ∧
      (sort_lawnmower (canonRow 1)).map Prod.fst =
        some (List.replicate 1 DISK_LIGHT ++ List.replicate 1 DISK_DARK) ∧
      (List.replicate 1 DISK_LIGHT ++
          List.replicate 1 DISK_DARK).length = 2 * 1 ∧
      (List.replicate 1 DISK_LIGHT ++ List.replicate 1 DISK_DARK).take 1 =
        List.replicate 1 DISK_LIGHT ∧
      (List.replicate 1 DISK_LIGHT ++ List.replicate 1 DISK_DARK).drop 1 =
        List.replicate 1 DISK_DARK ∧
      is_sorted (List.replicate 1 DISK_LIGHT ++
        List.replicate 1 DISK_DARK) = true :=
  C1_sorts_canonical 1 (by decide)

/-- C2: both outer while loops terminate with a sorted row on every row
reachable through the public API (built by `Row(n)`, `n ≥ 1`, and mutated
only by successful adjacent swaps, hence balanced). -/
theorem C2_termination (l : List disk_color) (h : Reachable l) :
    sortedOut (sort_left_to_right l) = true ∧
      sortedOut (sort_lawnmower l) = true := by
  obtain ⟨n, hn, hL, hD⟩ := reachable_balanced l h
  rw [sort_left_to_right_balanced l n hL hD hn,
    sort_lawnmower_balanced l n hL hD hn]
  simp [sortedOut, sorted_repl n hn]

/-- C2 witness at the canonical row for `n = 1`. -/
theorem C2_witness :
    sortedOut (sort_left_to_right (canonRow 1)) = true ∧
      sortedOut (sort_lawnmower (canonRow 1)) = true :=
  C2_termination (canonRow 1) (Reachable.init 1 (by decide))

/-- C3: for every `n ≥ 1` the two algorithms return equal swap counts on
the canonical initial row (and the runs do return). -/
theorem C3_equal_swap_counts (n : Nat) (h : 1 ≤ n) :
    (sort_left_to_right (canonRow n)).map Prod.snd =
        (sort_lawnmower (canonRow n)).map Prod.snd ∧
      (sort_left_to_right (canonRow n)).isSome = true := by
  rw [sort_left_to_right_balanced _ n (countL_canon n) (countD_canon n) h,
    sort_lawnmower_balanced _ n (countL_canon n) (countD_canon n) h]
  simp

/-- C3 witness at `n = 1`. -/
theorem C3_witness :
    (sort_left_to_right (canonRow 1)).map Prod.snd =
        (sort_lawnmower (canonRow 1)).map Prod.snd ∧
      (sort_left_to_right (canonRow 1)).isSome = true :=
  C3_equal_swap_counts 1 (by decide)

/-- C4 counterexample: for `n = 2` the left-to-right algorithm does NOT
return swap count 2 on `[DARK, LIGHT, DARK, LIGHT]` — the run performs 3
swaps. -/
theorem C4_counterexample :
    ¬ (sort_left_to_right (canonRow 2) =
        some ([DISK_LIGHT, DISK_LIGHT, DISK_DARK, DISK_DARK], 2)) := by
  decide

/-- C4 (amended): for `n = 2`, `sort_left_to_right` on the initial row
`[DARK, LIGHT, DARK, LIGHT]` returns `[LIGHT, LIGHT, DARK, DARK]` with a
swap count of 3, and `sort_lawnmower` returns the same row and the same
swap count. -/
theorem C4_n2_amended :
    canonRow 2 = [DISK_DARK, DISK_LIGHT, DISK_DARK, DISK_LIGHT] ∧
      sort_left_to_right (canonRow 2) =
        some ([DISK_LIGHT, DISK_LIGHT, DISK_DARK, DISK_DARK], 3) ∧
      sort_lawnmower (canonRow 2) =
        some ([DISK_LIGHT, DISK_LIGHT, DISK_DARK, DISK_DARK], 3) := by
  decide

/-- C5: for `n = 1`, both algorithms applied to `[DARK, LIGHT]` perform
exactly 1 swap and return `[LIGHT, DARK]`. -/
theorem C5_n1 :
    canonRow 1 = [DISK_DARK, DISK_LIGHT] ∧
      sort_left_to_right (canonRow 1) =
        some ([DISK_LIGHT, DISK_DARK], 1) ∧
      sort_lawnmower (canonRow 1) =
        some ([DISK_LIGHT, DISK_DARK], 1) := by
  decide

/-- C6: on a row that is already sorted, both algorithms return swap count
0 and the unchanged input row. -/
theorem C6_idempotent (l : List disk_color) (h : is_sorted l = true) :
    sort_left_to_right l = some (l, 0) ∧
      sort_lawnmower l = some (l, 0) :=
  ⟨sortAux_sorted ltrPass (inv l) l 0 h,
    sortAux_sorted lawnStep (inv l) l 0 h⟩

/-- C6 witness on the sorted row `[LIGHT, DARK]`. -/
theorem C6_witness :
    sort_left_to_right [DISK_LIGHT, DISK_DARK] =
        some ([DISK_LIGHT, DISK_DARK], 0) ∧
      sort_lawnmower [DISK_LIGHT, DISK_DARK] =
        some ([DISK_LIGHT, DISK_DARK], 0) :=
  C6_idempotent [DISK_LIGHT, DISK_DARK] (by decide)

/-- C7: the public operations fail exactly on their precondition
violations: `Row n` fails iff `n = 0`; `get l i` fails iff
`i ≥ total_count`; `swap l i` fails iff `i ≥ total_count` or
`i + 1 ≥ total_count`. -/
theorem C7_preconditions (n i : Nat) (l : List disk_color) :
    (Row n = none ↔ n = 0) ∧
      (get l i = none ↔ total_count l ≤ i) ∧
      (swap l i = none ↔ total_count l ≤ i ∨ total_count l ≤ i + 1) := by
  refine ⟨?_, ?_, ?_⟩
  · by_cases h : n = 0 <;> simp [Row, h]
  · simp [get, total_count, List.get?_eq_none]
  · rw [swap_eq_none_iff l i]
    simp only [total_count]
    omega

/-- C8: with the even length every representable row has, `is_sorted()` is
true iff the row is non-empty and every element at indices
`0 .. total_count()/2 - 1` is LIGHT; on the zero-length row it is false. -/
theorem C8_sorted_spec (l : List disk_color) (h : 2 ∣ l.length) :
    is_sorted l = true ↔
      0 < total_count l ∧
        ∀ i, i < total_count l / 2 → get l i = some DISK_LIGHT := by
  obtain ⟨k, hk⟩ := h
  rw [is_sorted_iff,
    take_all_light_iff l (l.length / 2) (Nat.div_le_self _ _)]
  simp only [total_count]
  constructor
  · rintro ⟨h1, h2⟩
    exact ⟨by omega, h2⟩
  · rintro ⟨h1, h2⟩
    exact ⟨by omega, h2⟩

/-- C8 witness: the specification instance on the sorted two-disk row. -/
theorem C8_witness :
    is_sorted [DISK_LIGHT, DISK_DARK] = true :=
  (C8_sorted_spec [DISK_LIGHT, DISK_DARK] (by decide)).mpr (by decide)

/-- C9: `swap` preserves the colour counts and every position other than
`i` and `i + 1`, and each sorting algorithm returns a row with the same
length and the same number of LIGHT and DARK disks as its input. -/
theorem C9_color_preservation :
    (∀ l i r, swap l i = some r →
        countL r = countL l ∧ countD r = countD l ∧
          r.length = l.length ∧
          ∀ j, j ≠ i → j ≠ i + 1 → get r j = get l j) ∧
      (∀ l r c, sort_left_to_right l = some (r, c) →
        r.length = l.length ∧ countL r = countL l ∧ countD r = countD l) ∧
      (∀ l r c, sort_lawnmower l = some (r, c) →
        r.length = l.length ∧ countL r = countL l ∧ countD r = countD l) := by
  refine ⟨?_, ?_, ?_⟩
  · intro l i r h
    obtain ⟨h1, h2, h3⟩ := swap_some_counts l i r h
    exact ⟨h1, h2, h3, swap_some_get l i r h⟩
  · intro l r c h
    rw [sort_left_to_right] at h
    obtain ⟨_, hL, hD, hlen, _⟩ := sortAux_sound ltrPass ltrPass_countL
      ltrPass_countD ltrPass_length ltrPass_inv (inv l) l 0 r c h
    exact ⟨hlen, hL, hD⟩
  · intro l r c h
    rw [sort_lawnmower] at h
    obtain ⟨_, hL, hD, hlen, _⟩ := sortAux_sound lawnStep lawnStep_countL
      lawnStep_countD lawnStep_length lawnStep_inv (inv l) l 0 r c h
    exact ⟨hlen, hL, hD⟩

/-- C9 witness: concrete instances of the three parts. -/
theorem C9_witness :
    countL [DISK_LIGHT, DISK_DARK] = countL [DISK_DARK, DISK_LIGHT] ∧
      get [DISK_LIGHT, DISK_DARK, DISK_DARK, DISK_LIGHT] 2 =
        get [DISK_DARK, DISK_LIGHT, DISK_DARK, DISK_LIGHT] 2 ∧
      ([DISK_LIGHT, DISK_DARK] : List disk_color).length =
        ([DISK_DARK, DISK_LIGHT] : List disk_color).length :=
  ⟨(C9_color_preservation.1 [DISK_DARK, DISK_LIGHT] 0
      [DISK_LIGHT, DISK_DARK] rfl).1,
    (C9_color_preservation.1 [DISK_DARK, DISK_LIGHT, DISK_DARK, DISK_LIGHT]
      0 [DISK_LIGHT, DISK_DARK, DISK_DARK, DISK_LIGHT] rfl).2.2.2 2
      (by decide) (by decide),
    (C9_color_preservation.2.1 [DISK_DARK, DISK_LIGHT]
      [DISK_LIGHT, DISK_DARK] 1 (by decide)).1⟩

/-- C10: for every `n ≥ 1` both algorithms perform exactly `n*(n+1)/2`
swaps on the canonical initial row. -/
theorem C10_swap_count_formula (n : Nat) (h : 1 ≤ n) :
    (sort_left_to_right (canonRow n)).map Prod.snd =
        some (n * (n + 1) / 2) ∧
      (sort_lawnmower (canonRow n)).map Prod.snd =
        some (n * (n + 1) / 2) := by
  have h2 := inv_canon n
  have hv : n * (n + 1) / 2 = inv (canonRow n) := by
    rw [← h2, Nat.mul_div_cancel_left _ (by norm_num : (0 : Nat) < 2)]
  rw [sort_left_to_right_balanced _ n (countL_canon n) (countD_canon n) h,
    sort_lawnmower_balanced _ n (countL_canon n) (countD_canon n) h]
  simp [hv]

/-- C10 witness at `n = 1`. -/
theorem C10_witness :
    (sort_left_to_right (canonRow 1)).map Prod.snd =
        some (1 * (1 + 1) / 2) ∧
      (sort_lawnmower (canonRow 1)).map Prod.snd =
        some (1 * (1 + 1) / 2) :=
  C10_swap_count_formula 1 (by decide)

end Disks
